import Mathlib

/-!
Verification of the water-filling power-allocation routines of the
Waterfilling_GNN notebook.

The notebook's tensors of length `n` are embedded as functions `Fin n → ℚ`
(exact rational arithmetic in place of float arithmetic); the active-user
indicator tensor `I_u` is a function `Fin n → Bool`.  The two solvers are

  * `waterfilling_backtracking` — active-set elimination.  The Python `while`
    loop is embedded as the fuel recursion `wf_loop`; the fuel `n + 1` is
    enough because every non-breaking iteration deactivates at least one
    active user.  The `Option` result models the fact that the Python
    variable `allocated_power` is unbound if the loop body never ran
    (`none`), and the carried `last` argument models the value the Python
    `return` statement would see if the loop exited with an empty active set.

  * `waterfilling_bisection` — bracketed bisection on the water level.  In
    the source the `return allocated_power` statement sits inside the body of
    the `while` loop, so the function returns during the first iteration
    (the bracket update before the return is dead code), and returns Python
    `None` (here `none`) when the loop guard fails immediately.

  * `compute_weighted_rate` — the weighted sum-rate evaluator
    `sum_u w_u * log2(1 + g_u * p_u)`, embedded over `ℝ`.
-/

/-- The rational value of the indicator tensor entry `I_u` (1 for an active
user, 0 for an inactive one), so that `I_u * x` from the source is
`indQ (I u) * x`. -/
def indQ (b : Bool) : ℚ := if b then 1 else 0

/-- `inv_mu` of `waterfilling_backtracking`:
`(total_power + torch.sum(I_u * 1/channel_gains)) / torch.sum(I_u * user_weights)`
with `total_power = 1`. -/
def invMu {n : ℕ} (w g : Fin n → ℚ) (I : Fin n → Bool) : ℚ :=
  (1 + ∑ u, indQ (I u) * (1 / g u)) / ∑ u, indQ (I u) * w u

/-- `allocated_power = I_u * (user_weights*inv_mu - 1/channel_gains)`. -/
def allocOf {n : ℕ} (w g : Fin n → ℚ) (I : Fin n → Bool) : Fin n → ℚ :=
  fun u => indQ (I u) * (w u * invMu w g I - 1 / g u)

/-- `I_u[Sinactive] = 0` where `Sinactive = torch.where(allocated_power < 0)[0]`:
exactly the users whose trial allocation is negative are deactivated. -/
def deactivate {n : ℕ} (I : Fin n → Bool) (a : Fin n → ℚ) : Fin n → Bool :=
  fun u => if a u < 0 then false else I u

/-- The `while torch.sum(I_u) > 0` loop of `waterfilling_backtracking`.
`last` is the value of the Python variable `allocated_power` when the loop
guard is re-examined (`none` before the first iteration); it is what the
final `return` statement yields if the guard fails. -/
def wf_loop {n : ℕ} (w g : Fin n → ℚ) :
    ℕ → (Fin n → Bool) → Option (Fin n → ℚ) → Option (Fin n → ℚ)
  | 0, _, last => last
  | fuel + 1, I, last =>
    if 0 < ∑ u, indQ (I u) then
      if ∀ u, ¬ allocOf w g I u < 0 then some (allocOf w g I)
      else wf_loop w g fuel (deactivate I (allocOf w g I)) (some (allocOf w g I))
    else last

/-- `waterfilling_backtracking(user_weights, channel_gains)`: all users start
active, `total_power = 1`.  Fuel `n + 1` covers the at most `n` deactivation
rounds plus the final breaking check. -/
def waterfilling_backtracking {n : ℕ} (w g : Fin n → ℚ) : Option (Fin n → ℚ) :=
  wf_loop w g (n + 1) (fun _ => true) none

/-- The initial upper bracket of `waterfilling_bisection`:
`mu_max = (total_power + torch.sum(1/channel_gains))/torch.sum(user_weights) + 0.1`
with `total_power = 1`. -/
def bisection_mu_max {n : ℕ} (w g : Fin n → ℚ) : ℚ :=
  (1 + ∑ u, 1 / g u) / (∑ u, w u) + 1 / 10

/-- `waterfilling_bisection(user_weights, channel_gains, epsilon)`.  In the
source the `return allocated_power` statement is inside the `while` loop
body, so if the guard `mu_max - mu_min > epsilon` holds (with `mu_min = 0`)
the function returns the allocation computed at the first midpoint
`mu = (mu_min + mu_max)/2`; the bracket update that precedes the return is
dead code and no second iteration is reachable.  If the guard fails at
entry, the function falls off its end and returns Python `None` (`none`). -/
def waterfilling_bisection {n : ℕ} (w g : Fin n → ℚ) (epsilon : ℚ) :
    Option (Fin n → ℚ) :=
  if bisection_mu_max w g - 0 > epsilon then
    some (fun u => max 0 (w u * ((0 + bisection_mu_max w g) / 2) - 1 / g u))
  else none

/-- `compute_weighted_rate(channel_gains, user_weights, allocated_power)`:
`SNR = channel_gains * allocated_power`,
`weighted_rate = user_weights * torch.log2(1 + SNR)`, summed. -/
noncomputable def compute_weighted_rate {n : ℕ}
    (channel_gains user_weights allocated_power : Fin n → ℝ) : ℝ :=
  ∑ u, user_weights u * Real.logb 2 (1 + channel_gains u * allocated_power u)

/-- Number of active users in an indicator mask (the value of
`torch.sum(I_u)` as a natural number). -/
def maskCard {n : ℕ} (I : Fin n → Bool) : ℕ :=
  (Finset.univ.filter fun u => I u = true).card

lemma sum_indQ_eq_card {n : ℕ} (I : Fin n → Bool) :
    ∑ u, indQ (I u) = (maskCard I : ℚ) := by
  simp [indQ, maskCard, Finset.sum_boole]

lemma maskCard_allTrue (n : ℕ) : maskCard (fun _ : Fin n => true) = n := by
  simp [maskCard]

lemma active_of_allocOf_neg {n : ℕ} (w g : Fin n → ℚ) (I : Fin n → Bool)
    (u : Fin n) (h : allocOf w g I u < 0) : I u = true := by
  cases hI : I u with
  | true => rfl
  | false => simp [allocOf, indQ, hI] at h

lemma active_of_allocOf_pos {n : ℕ} (w g : Fin n → ℚ) (I : Fin n → Bool)
    (u : Fin n) (h : 0 < allocOf w g I u) : I u = true := by
  cases hI : I u with
  | true => rfl
  | false => simp [allocOf, indQ, hI] at h

lemma masked_weight_pos {n : ℕ} (w : Fin n → ℚ) (I : Fin n → Bool)
    (hw : ∀ u, 0 < w u) (hI : 0 < maskCard I) :
    0 < ∑ u, indQ (I u) * w u := by
  obtain ⟨u, hu⟩ := Finset.card_pos.mp hI
  simp only [Finset.mem_filter, Finset.mem_univ, true_and] at hu
  apply Finset.sum_pos'
  · intro v _
    cases hv : I v with
    | true => simpa [indQ, hv] using le_of_lt (hw v)
    | false => simp [indQ, hv]
  · exact ⟨u, Finset.mem_univ u, by simpa [indQ, hu] using hw u⟩

lemma sum_allocOf {n : ℕ} (w g : Fin n → ℚ) (I : Fin n → Bool)
    (hW : (∑ u, indQ (I u) * w u) ≠ 0) :
    ∑ u, allocOf w g I u = 1 := by
  have hexp : ∀ u ∈ Finset.univ, allocOf w g I u
      = (indQ (I u) * w u) * invMu w g I - indQ (I u) * (1 / g u) := by
    intro u _
    unfold allocOf
    ring
  rw [Finset.sum_congr rfl hexp, Finset.sum_sub_distrib, ← Finset.sum_mul]
  unfold invMu
  rw [mul_comm, div_mul_cancel₀ _ hW]
  ring

lemma exists_pos_of_sum_one {n : ℕ} (a : Fin n → ℚ) (h : ∑ u, a u = 1) :
    ∃ u, 0 < a u := by
  by_contra hc
  push_neg at hc
  have hle : (∑ u, a u) ≤ 0 := Finset.sum_nonpos (fun u _ => hc u)
  rw [h] at hle
  linarith

lemma maskCard_deactivate_lt {n : ℕ} (w g : Fin n → ℚ) (I : Fin n → Bool)
    (h : ∃ u, allocOf w g I u < 0) :
    maskCard (deactivate I (allocOf w g I)) < maskCard I := by
  obtain ⟨u, hu⟩ := h
  have hIu : I u = true := active_of_allocOf_neg w g I u hu
  have hsub : (Finset.univ.filter fun v => deactivate I (allocOf w g I) v = true)
      ⊆ (Finset.univ.filter fun v => I v = true) := by
    intro v hv
    simp only [Finset.mem_filter, Finset.mem_univ, true_and] at hv ⊢
    unfold deactivate at hv
    by_cases hc : allocOf w g I v < 0
    · rw [if_pos hc] at hv
      exact absurd hv (by simp)
    · rwa [if_neg hc] at hv
  apply Finset.card_lt_card
  rw [Finset.ssubset_iff_of_subset hsub]
  refine ⟨u, by simp [hIu], ?_⟩
  have hdu : deactivate I (allocOf w g I) u = false := by
    simp [deactivate, if_pos hu]
  simp [Finset.mem_filter, hdu]

lemma maskCard_deactivate_pos {n : ℕ} (w g : Fin n → ℚ) (I : Fin n → Bool)
    (v : Fin n) (hv : 0 < allocOf w g I v) :
    0 < maskCard (deactivate I (allocOf w g I)) := by
  have hIv : I v = true := active_of_allocOf_pos w g I v hv
  apply Finset.card_pos.mpr
  refine ⟨v, Finset.mem_filter.mpr ⟨Finset.mem_univ v, ?_⟩⟩
  simp [deactivate, not_lt.mpr (le_of_lt hv), hIv]

lemma wf_loop_spec {n : ℕ} (w g : Fin n → ℚ) (hw : ∀ u, 0 < w u) :
    ∀ N : ℕ, ∀ I : Fin n → Bool, maskCard I = N → 0 < maskCard I →
      ∃ a : Fin n → ℚ,
        (∀ fuel last, maskCard I ≤ fuel → wf_loop w g fuel I last = some a) ∧
        (∑ u, a u) = 1 ∧ (∀ u, 0 ≤ a u) ∧ (∃ u, 0 < a u) := by
  intro N
  induction N using Nat.strong_induction_on with
  | _ N ih =>
    intro I hN hpos
    have hcond : (0:ℚ) < ∑ u, indQ (I u) := by
      rw [sum_indQ_eq_card]
      exact_mod_cast hpos
    have hW : (0:ℚ) < ∑ u, indQ (I u) * w u := masked_weight_pos w I hw hpos
    have hsum : ∑ u, allocOf w g I u = 1 := sum_allocOf w g I (ne_of_gt hW)
    have hex : ∃ v, 0 < allocOf w g I v := exists_pos_of_sum_one _ hsum
    by_cases hneg : ∀ u, ¬ allocOf w g I u < 0
    · refine ⟨allocOf w g I, ?_, hsum, fun u => not_lt.mp (hneg u), hex⟩
      intro fuel last hfuel
      match fuel with
      | 0 => omega
      | k + 1 =>
        rw [wf_loop, if_pos hcond, if_pos hneg]
    · have hexneg : ∃ u, allocOf w g I u < 0 := by
        push_neg at hneg
        simpa using hneg
      have hlt : maskCard (deactivate I (allocOf w g I)) < maskCard I :=
        maskCard_deactivate_lt w g I hexneg
      obtain ⟨v, hv⟩ := hex
      have hpos2 : 0 < maskCard (deactivate I (allocOf w g I)) :=
        maskCard_deactivate_pos w g I v hv
      obtain ⟨a, hrec, hs, hnn, hex2⟩ :=
        ih (maskCard (deactivate I (allocOf w g I))) (by omega)
          (deactivate I (allocOf w g I)) rfl hpos2
      refine ⟨a, ?_, hs, hnn, hex2⟩
      intro fuel last hfuel
      match fuel with
      | 0 => omega
      | k + 1 =>
        rw [wf_loop, if_pos hcond, if_neg hneg]
        exact hrec k _ (by omega)

/-- Claim C1: for every input with `n ≥ 1` users, strictly positive weights
and strictly positive gains, the allocation returned by
`waterfilling_backtracking` sums exactly to the hardcoded budget
`total_power = 1`.  (The proviso of the claim — at least one user active at
termination — always holds under these preconditions, so the theorem is
unconditional on it.) -/
theorem backtracking_sum_eq_budget {n : ℕ} (w g : Fin n → ℚ)
    (hn : 0 < n) (hw : ∀ u, 0 < w u) (hg : ∀ u, 0 < g u) :
    ∃ a, waterfilling_backtracking w g = some a ∧ ∑ u, a u = 1 := by
  obtain ⟨a, hloop, hs, _, _⟩ :=
    wf_loop_spec w g hw n (fun _ => true) (maskCard_allTrue n)
      (by rw [maskCard_allTrue]; omega)
  exact ⟨a, hloop (n + 1) none (by rw [maskCard_allTrue]; omega), hs⟩

/-- Witness for C1 at `n = 2`, `weights = gains = [1, 1]`. -/
theorem backtracking_sum_eq_budget_witness :
    0 < 2 ∧ (∀ u : Fin 2, (0:ℚ) < 1) ∧
    ∃ a, waterfilling_backtracking (fun _ : Fin 2 => (1:ℚ)) (fun _ => 1) = some a ∧
      ∑ u, a u = 1 :=
  ⟨by norm_num, fun u => by norm_num,
    backtracking_sum_eq_budget (fun _ => 1) (fun _ => 1) (by norm_num)
      (fun u => by norm_num) (fun u => by norm_num)⟩

/-- Claim C5: every component of the allocation returned by
`waterfilling_backtracking`, and of any allocation returned by
`waterfilling_bisection`, is non-negative. -/
theorem allocations_nonneg {n : ℕ} (w g : Fin n → ℚ)
    (hn : 0 < n) (hw : ∀ u, 0 < w u) (hg : ∀ u, 0 < g u) :
    (∃ a, waterfilling_backtracking w g = some a ∧ ∀ u, 0 ≤ a u) ∧
    (∀ epsilon a, waterfilling_bisection w g epsilon = some a → ∀ u, 0 ≤ a u) := by
  constructor
  · obtain ⟨a, hloop, _, hnn, _⟩ :=
      wf_loop_spec w g hw n (fun _ => true) (maskCard_allTrue n)
        (by rw [maskCard_allTrue]; omega)
    exact ⟨a, hloop (n + 1) none (by rw [maskCard_allTrue]; omega), hnn⟩
  · intro epsilon a ha u
    unfold waterfilling_bisection at ha
    by_cases hc : bisection_mu_max w g - 0 > epsilon
    · rw [if_pos hc] at ha
      rw [← Option.some.inj ha]
      exact le_max_left 0 _
    · rw [if_neg hc] at ha
      cases ha

/-- Witness for C5 at `n = 2`, `weights = gains = [1, 1]`. -/
theorem allocations_nonneg_witness :
    0 < 2 ∧ (∀ u : Fin 2, (0:ℚ) < 1) ∧
    ((∃ a, waterfilling_backtracking (fun _ : Fin 2 => (1:ℚ)) (fun _ => 1) = some a ∧
        ∀ u, 0 ≤ a u) ∧
     (∀ epsilon a, waterfilling_bisection (fun _ : Fin 2 => (1:ℚ)) (fun _ => 1) epsilon
        = some a → ∀ u, 0 ≤ a u)) :=
  ⟨by norm_num, fun u => by norm_num,
    allocations_nonneg (fun _ => 1) (fun _ => 1) (by norm_num)
      (fun u => by norm_num) (fun u => by norm_num)⟩

/-- Claim C6: each loop iteration of `waterfilling_backtracking` either
breaks (no active user's trial allocation is negative) or deactivates at
least one currently active user (`maskCard` strictly decreases), and
consequently `n` rounds of fuel already produce the final result: the loop
performs at most `n` iterations. -/
theorem backtracking_iterations_bounded {n : ℕ} (w g : Fin n → ℚ)
    (hn : 0 < n) (hw : ∀ u, 0 < w u) (hg : ∀ u, 0 < g u) :
    (∀ I : Fin n → Bool, (∃ u, allocOf w g I u < 0) →
        maskCard (deactivate I (allocOf w g I)) < maskCard I) ∧
    ∃ a, ∀ fuel, n ≤ fuel → wf_loop w g fuel (fun _ => true) none = some a := by
  refine ⟨fun I h => maskCard_deactivate_lt w g I h, ?_⟩
  obtain ⟨a, hloop, _, _, _⟩ :=
    wf_loop_spec w g hw n (fun _ => true) (maskCard_allTrue n)
      (by rw [maskCard_allTrue]; omega)
  exact ⟨a, fun fuel hf => hloop fuel none (by rw [maskCard_allTrue]; omega)⟩

/-- Witness for C6 at `n = 2`, `weights = gains = [1, 1]`. -/
theorem backtracking_iterations_bounded_witness :
    0 < 2 ∧ (∀ u : Fin 2, (0:ℚ) < 1) ∧
    ((∀ I : Fin 2 → Bool,
        (∃ u, allocOf (fun _ : Fin 2 => (1:ℚ)) (fun _ => 1) I u < 0) →
        maskCard (deactivate I (allocOf (fun _ : Fin 2 => (1:ℚ)) (fun _ => 1) I))
          < maskCard I) ∧
     ∃ a, ∀ fuel, 2 ≤ fuel →
        wf_loop (fun _ : Fin 2 => (1:ℚ)) (fun _ => 1) fuel (fun _ => true) none = some a) :=
  ⟨by norm_num, fun u => by norm_num,
    backtracking_iterations_bounded (fun _ => 1) (fun _ => 1) (by norm_num)
      (fun u => by norm_num) (fun u => by norm_num)⟩

/-- Claim C7: with positive weights and gains the active set never becomes
empty: the result carries at least one user with strictly positive power,
and the value the loop would return on the empty-active-set exit (the
carried `last` argument, also returned on fuel exhaustion) never influences
the result — that exit path is unreachable, the loop always leaves via the
break. -/
theorem backtracking_active_set_nonempty {n : ℕ} (w g : Fin n → ℚ)
    (hn : 0 < n) (hw : ∀ u, 0 < w u) (hg : ∀ u, 0 < g u) :
    ∃ a, waterfilling_backtracking w g = some a ∧ (∃ u, 0 < a u) ∧
      ∀ last, wf_loop w g (n + 1) (fun _ => true) last = some a := by
  obtain ⟨a, hloop, _, _, hex⟩ :=
    wf_loop_spec w g hw n (fun _ => true) (maskCard_allTrue n)
      (by rw [maskCard_allTrue]; omega)
  exact ⟨a, hloop (n + 1) none (by rw [maskCard_allTrue]; omega), hex,
    fun last => hloop (n + 1) last (by rw [maskCard_allTrue]; omega)⟩

/-- Witness for C7 at `n = 2`, `weights = gains = [1, 1]`. -/
theorem backtracking_active_set_nonempty_witness :
    0 < 2 ∧ (∀ u : Fin 2, (0:ℚ) < 1) ∧
    ∃ a, waterfilling_backtracking (fun _ : Fin 2 => (1:ℚ)) (fun _ => 1) = some a ∧
      (∃ u, 0 < a u) ∧
      ∀ last, wf_loop (fun _ : Fin 2 => (1:ℚ)) (fun _ => 1) 3 (fun _ => true) last
        = some a :=
  ⟨by norm_num, fun u => by norm_num,
    backtracking_active_set_nonempty (fun _ => 1) (fun _ => 1) (by norm_num)
      (fun u => by norm_num) (fun u => by norm_num)⟩

/-- Claim C2: whenever the tolerance is smaller than the initial upper
bracket `mu_max`, `waterfilling_bisection` returns during the first
iteration of its loop, with the allocation computed at the first midpoint
`mu_max / 2`; the right-hand side does not mention the tolerance, so the
tolerance has no further effect. -/
theorem bisection_returns_first_midpoint {n : ℕ} (w g : Fin n → ℚ) (epsilon : ℚ)
    (hn : 0 < n) (hw : ∀ u, 0 < w u) (hg : ∀ u, 0 < g u)
    (he : epsilon < bisection_mu_max w g) :
    waterfilling_bisection w g epsilon
      = some (fun u => max 0 (w u * (bisection_mu_max w g / 2) - 1 / g u)) := by
  unfold waterfilling_bisection
  rw [if_pos (by linarith)]
  simp only [zero_add]

/-- Witness for C2 at `n = 1`, `weights = gains = [1]`, tolerance `1`. -/
theorem bisection_returns_first_midpoint_witness :
    0 < 1 ∧ (∀ u : Fin 1, (0:ℚ) < 1) ∧
    (1:ℚ) < bisection_mu_max (fun _ : Fin 1 => (1:ℚ)) (fun _ => 1) ∧
    waterfilling_bisection (fun _ : Fin 1 => (1:ℚ)) (fun _ => 1) 1
      = some (fun u => max 0 ((fun _ : Fin 1 => (1:ℚ)) u *
          (bisection_mu_max (fun _ : Fin 1 => (1:ℚ)) (fun _ => 1) / 2)
          - 1 / (fun _ : Fin 1 => (1:ℚ)) u)) := by
  have hmu : bisection_mu_max (fun _ : Fin 1 => (1:ℚ)) (fun _ => 1) = 21 / 10 := by
    simp [bisection_mu_max, Fin.sum_univ_one]
    norm_num
  refine ⟨by norm_num, fun u => by norm_num, by rw [hmu] ; norm_num, ?_⟩
  exact bisection_returns_first_midpoint _ _ 1 (by norm_num)
    (fun u => by norm_num) (fun u => by norm_num) (by rw [hmu] ; norm_num)

/-- Claim C10: when the tolerance is at least the initial bracket width
(`mu_max`, since `mu_min = 0`), the loop guard of `waterfilling_bisection`
fails immediately, the body never runs, and the function returns no
allocation at all (Python `None`). -/
theorem bisection_returns_none_on_large_tolerance {n : ℕ} (w g : Fin n → ℚ)
    (epsilon : ℚ) (hn : 0 < n) (hw : ∀ u, 0 < w u) (hg : ∀ u, 0 < g u)
    (he : bisection_mu_max w g ≤ epsilon) :
    waterfilling_bisection w g epsilon = none := by
  unfold waterfilling_bisection
  have hng : ¬ bisection_mu_max w g - 0 > epsilon := by
    rw [sub_zero]
    exact not_lt.mpr he
  rw [if_neg hng]

/-- Witness for C10 at `n = 1`, `weights = gains = [1]`, tolerance `3`
(the initial bracket is `21/10 ≤ 3`). -/
theorem bisection_returns_none_on_large_tolerance_witness :
    0 < 1 ∧ (∀ u : Fin 1, (0:ℚ) < 1) ∧
    bisection_mu_max (fun _ : Fin 1 => (1:ℚ)) (fun _ => 1) ≤ 3 ∧
    waterfilling_bisection (fun _ : Fin 1 => (1:ℚ)) (fun _ => 1) 3 = none := by
  have hmu : bisection_mu_max (fun _ : Fin 1 => (1:ℚ)) (fun _ => 1) = 21 / 10 := by
    simp [bisection_mu_max, Fin.sum_univ_one]
    norm_num
  refine ⟨by norm_num, fun u => by norm_num, by rw [hmu] ; norm_num, ?_⟩
  exact bisection_returns_none_on_large_tolerance _ _ 3 (by norm_num)
    (fun u => by norm_num) (fun u => by norm_num) (by rw [hmu] ; norm_num)

lemma bisection_ones2_eval (epsilon : ℚ) (he : epsilon < 8 / 5) :
    waterfilling_bisection (fun _ : Fin 2 => (1:ℚ)) (fun _ => 1) epsilon
      = some (fun _ => 0) := by
  have hmu : bisection_mu_max (fun _ : Fin 2 => (1:ℚ)) (fun _ => 1) = 8 / 5 := by
    simp [bisection_mu_max, Fin.sum_univ_two]
    norm_num
  unfold waterfilling_bisection
  rw [hmu, if_pos (by linarith)]
  congr 1
  funext u
  rw [show (1:ℚ) * ((0 + 8 / 5) / 2) - 1 / 1 = -1/5 by norm_num]
  rw [max_eq_left (by norm_num)]

lemma backtracking_ones2_eval :
    waterfilling_backtracking (fun _ : Fin 2 => (1:ℚ)) (fun _ => 1)
      = some (fun _ => 1 / 2) := by
  have hmu : invMu (fun _ : Fin 2 => (1:ℚ)) (fun _ => 1) (fun _ => true) = 3 / 2 := by
    simp [invMu, indQ, Fin.sum_univ_two]
    norm_num
  have ha : allocOf (fun _ : Fin 2 => (1:ℚ)) (fun _ => 1) (fun _ => true)
      = fun _ => 1 / 2 := by
    funext u
    simp [allocOf, indQ, hmu]
    norm_num
  rw [waterfilling_backtracking, wf_loop]
  rw [if_pos (by simp [indQ, Fin.sum_univ_two])]
  rw [if_pos (by rw [ha] ; intro u ; norm_num)]
  rw [ha]

/-- Claim C3 fails on the code: at `weights = gains = [1, 1]` the bisection
returns the allocation of the very first midpoint, `[0, 0]`, whose bracket
is still `8/5` wide — far above the tolerance — and tightening the
tolerance by six more orders of magnitude changes nothing: the loop does
not run to convergence. -/
theorem bisection_not_converged_eval :
    waterfilling_bisection (fun _ : Fin 2 => (1:ℚ)) (fun _ => 1) (1 / 1000000)
      = some (fun _ => 0) ∧
    waterfilling_bisection (fun _ : Fin 2 => (1:ℚ)) (fun _ => 1) (1 / 1000000000000)
      = waterfilling_bisection (fun _ : Fin 2 => (1:ℚ)) (fun _ => 1) (1 / 1000000) := by
  have h1 := bisection_ones2_eval (1 / 1000000) (by norm_num)
  have h2 := bisection_ones2_eval (1 / 1000000000000) (by norm_num)
  exact ⟨h1, h2.trans h1.symm⟩

/-- Claim C4 fails on the code: on `weights = gains = [1, 1]` the
backtracking solver returns `[1/2, 1/2]` while the bisection solver with
tolerance `1e-9` returns `[0, 0]` (first-midpoint return), a componentwise
gap of `1/2`, far above `1e-4`. -/
theorem cross_solver_disagreement_eval :
    waterfilling_backtracking (fun _ : Fin 2 => (1:ℚ)) (fun _ => 1)
      = some (fun _ => 1 / 2) ∧
    waterfilling_bisection (fun _ : Fin 2 => (1:ℚ)) (fun _ => 1) (1 / 1000000000)
      = some (fun _ => 0) ∧
    ¬ |(1:ℚ) / 2 - 0| < 1 / 10000 := by
  refine ⟨backtracking_ones2_eval, bisection_ones2_eval _ (by norm_num), ?_⟩
  rw [sub_zero, abs_of_nonneg (by norm_num)]
  norm_num

/-- Counterexample to claim C8: the code performs no input validation at
all — on the invalid input `weights = [-1]`, `gains = [1]` (a non-positive
weight), `waterfilling_backtracking` returns the ordinary allocation
`[1.0]` instead of raising anything; no `InvalidInputError` exists in the
source. -/
theorem no_input_validation_counterexample :
    waterfilling_backtracking (fun _ : Fin 1 => (-1:ℚ)) (fun _ => 1)
      = some (fun _ => 1) := by
  have hmu : invMu (fun _ : Fin 1 => (-1:ℚ)) (fun _ => 1) (fun _ => true) = -2 := by
    simp [invMu, indQ, Fin.sum_univ_one]
    norm_num
  have ha : allocOf (fun _ : Fin 1 => (-1:ℚ)) (fun _ => 1) (fun _ => true)
      = fun _ => 1 := by
    funext u
    simp [allocOf, indQ, hmu]
    norm_num
  rw [waterfilling_backtracking, wf_loop]
  rw [if_pos (by simp [indQ, Fin.sum_univ_one])]
  rw [if_pos (by rw [ha] ; intro u ; norm_num)]
  rw [ha]

/-- Amended C8: the operations perform no input validation and define no
`InvalidInputError`; on inputs violating the positivity preconditions they
proceed with the arithmetic and return ordinary values — here both solvers
on a non-positive gain (`weights = [1]`, `gains = [-1]`) return normal
allocations. -/
theorem no_input_validation_amended :
    waterfilling_backtracking (fun _ : Fin 1 => (1:ℚ)) (fun _ => -1)
      = some (fun _ => 1) ∧
    waterfilling_bisection (fun _ : Fin 1 => (1:ℚ)) (fun _ => -1) (1 / 1000000)
      = some (fun _ => 21 / 20) := by
  constructor
  · have hmu : invMu (fun _ : Fin 1 => (1:ℚ)) (fun _ => -1) (fun _ => true) = 0 := by
      simp [invMu, indQ, Fin.sum_univ_one]
    have ha : allocOf (fun _ : Fin 1 => (1:ℚ)) (fun _ => -1) (fun _ => true)
        = fun _ => 1 := by
      funext u
      simp [allocOf, indQ, hmu]
    rw [waterfilling_backtracking, wf_loop]
    rw [if_pos (by simp [indQ, Fin.sum_univ_one])]
    rw [if_pos (by rw [ha] ; intro u ; norm_num)]
    rw [ha]
  · have hmu : bisection_mu_max (fun _ : Fin 1 => (1:ℚ)) (fun _ => -1) = 1 / 10 := by
      simp [bisection_mu_max, Fin.sum_univ_one]
    unfold waterfilling_bisection
    rw [hmu, if_pos (by norm_num)]
    congr 1
    funext u
    rw [show (1:ℚ) * ((0 + 1 / 10) / 2) - 1 / (-1) = 21 / 20 by norm_num]
    rw [max_eq_right (by norm_num)]

/-- Claim C9: `compute_weighted_rate` returns the weighted sum rate
`sum_u weight_u * log2(1 + gain_u * allocation_u)` (note the source's
argument order: gains first, then weights, then the allocation), and on
`weights = [1, 1]`, `gains = [1, 1]`, `allocation = [1/2, 1/2]` it equals
`2 * log2(3/2)`. -/
theorem compute_weighted_rate_formula :
    (∀ (n : ℕ) (channel_gains user_weights allocated_power : Fin n → ℝ),
        compute_weighted_rate channel_gains user_weights allocated_power
          = ∑ u, user_weights u * Real.logb 2 (1 + channel_gains u * allocated_power u)) ∧
    compute_weighted_rate (fun _ : Fin 2 => (1:ℝ)) (fun _ => 1) (fun _ => 1 / 2)
      = 2 * Real.logb 2 (3 / 2) := by
  refine ⟨fun n cg uw ap => rfl, ?_⟩
  unfold compute_weighted_rate
  rw [Fin.sum_univ_two]
  norm_num
  ring
